import Mathlib

/-!
Verification development for the audio alignment core of the repository
(align_first_anchor.py, re-exported unchanged by app/services/alignment_service.py).

Samples are modelled as exact rationals (the source computes with numpy floats;
every claim under consideration concerns selection logic, index bookkeeping and
case splits, which are well defined over exact arithmetic).  Python int()
truncation, round() banker rounding and list slicing are modelled explicitly.
-/

/-- Python int(q) for a rational: truncation toward zero (Int.tdiv is
truncated division). -/
def pyInt (q : ℚ) : ℤ := Int.tdiv q.num q.den

/-- Floor of a rational through floored integer division (kernel evaluable). -/
def ratFloor (q : ℚ) : ℤ := Int.fdiv q.num q.den

/-- Python round(q) to an integer: round half to even (banker rounding). -/
def pyRound (q : ℚ) : ℤ :=
  let f : ℤ := ratFloor q
  let r : ℚ := q - f
  if r < 1/2 then f
  else if 1/2 < r then f + 1
  else if f % 2 = 0 then f else f + 1

/-- Normalize one bound of a Python slice l[i:j] for a list of length len:
negative indices count from the end, then the bound is clamped to [0, len]. -/
def pySliceIdx (len : ℕ) (i : ℤ) : ℕ :=
  if i < 0 then ((len : ℤ) + i).toNat else min i.toNat len

/-- Python slice l[i:j] (step 1) with full negative-index and clamping semantics. -/
def pySlice (l : List ℚ) (i j : ℤ) : List ℚ :=
  (l.take (pySliceIdx l.length j)).drop (pySliceIdx l.length i)

/-- np.mean of a list (0 on the empty list; the source only takes means of
arrays already checked to be non-empty). -/
def listMean (l : List ℚ) : ℚ := l.sum / l.length

/-- Zero-mean step of estimate_offset_seconds: a0 = a - np.mean(a). -/
def zeroMean (l : List ℚ) : List ℚ := l.map (fun x => x - listMean l)

/-- Sum of squares, np.sum(a0*a0). -/
def sumSq (l : List ℚ) : ℚ := (l.map (fun x => x * x)).sum

/-- Sample access at a signed index, 0 outside the array (used to express the
zero padding implicit in a full linear correlation). -/
def getQ (l : List ℚ) (i : ℤ) : ℚ :=
  if i < 0 then 0 else l.getD i.toNat 0

/-- Value of the full linear cross-correlation of a and b at integer lag
L: the sum over n of a[n + L] * b[n].  This is the quantity
scipy.signal.correlate(a, b, mode="full") computes at the lag labelled L by
np.arange(-b.size + 1, a.size); the FFT method of the source is an
implementation strategy for the same mathematical value. -/
def corrAt (a b : List ℚ) (lag : ℤ) : ℚ :=
  ((List.range b.length).map (fun (n : ℕ) => getQ a ((n : ℤ) + lag) * b.getD n 0)).sum

/-- lags_full = np.arange(-b.size + 1, a.size), in increasing order. -/
def lagsFull (a b : List ℚ) : List ℤ :=
  (List.range (a.length + b.length - 1)).map (fun (k : ℕ) => (k : ℤ) - ((b.length : ℤ) - 1))

/-- Search bound of estimate_offset_seconds: max_lag = int(max_search * sr) if
max_search is not None and max_search > 0, else min(a.size, b.size) - 1. -/
def maxLagOf (a b : List ℚ) (sr : ℕ) (max_search : Option ℚ) : ℤ :=
  match max_search with
  | some m => if 0 < m then pyInt (m * sr) else (min a.length b.length : ℤ) - 1
  | none => (min a.length b.length : ℤ) - 1

/-- keep = (lags_full >= -max_lag) & (lags_full <= max_lag); lags = lags_full[keep]. -/
def keptLags (a b : List ℚ) (sr : ℕ) (max_search : Option ℚ) : List ℤ :=
  let L := maxLagOf a b sr max_search
  (lagsFull a b).filter (fun l => decide (-L ≤ l) && decide (l ≤ L))

/-- corr = corr_full[keep]: the masked correlation values, expressed by mapping
the correlation of the zero-meaned arrays over the kept lags (corr_full is
positionally the image of lags_full under corrAt, so masking both arrays with
the same boolean mask gives exactly this list). -/
def keptCorr (a b : List ℚ) (sr : ℕ) (max_search : Option ℚ) : List ℚ :=
  (keptLags a b sr max_search).map (corrAt (zeroMean a) (zeroMean b))

/-- np.argmax: index of the first occurrence of the maximum (0 on empty input). -/
def argmaxIdx : List ℚ → ℕ
  | [] => 0
  | x :: xs => if xs.all (fun y => decide (y ≤ x)) then 0 else argmaxIdx xs + 1

/-- estimate_offset_seconds of the source.  Returns
(offset_sec, lags in seconds, correlation curve over the kept lags).
The source divides the returned curve and the argmax input by the single
positive scalar denom = sqrt(sum(a0*a0)*sum(b0*b0)) + 1e-12 (irrational in
general, hence kept out of the executable definition); division by a positive
constant changes neither the argmax index nor any property claimed about the
curve, and the claim theorems below are stated against the normalized real
curve explicitly, bridged by the proved argmax-invariance lemmas. -/
def estimate_offset_seconds (a b : List ℚ) (sr : ℕ) (max_search : Option ℚ) :
    ℚ × List ℚ × List ℚ :=
  if a.length = 0 ∨ b.length = 0 then (0, [0], [1])
  else
    let lags := keptLags a b sr max_search
    let corr := keptCorr a b sr max_search
    let best_idx := argmaxIdx corr
    let best_lag : ℤ := lags.getD best_idx 0
    (-(best_lag : ℚ) / sr, lags.map (fun (l : ℤ) => (l : ℚ) / sr), corr)

/-- First-occurrence argmax specification over a real-valued score list:
index i is in range, carries a maximal score, and strictly exceeds every
earlier score. -/
def IsFirstArgmax (l : List ℝ) (i : ℕ) : Prop :=
  i < l.length ∧
  (∀ j, j < l.length → l.getD j 0 ≤ l.getD i 0) ∧
  (∀ j, j < i → l.getD j 0 < l.getD i 0)

example : pyInt (5/2) = 2 := by with_unfolding_all rfl
example : pyInt (-5/2) = -2 := by with_unfolding_all rfl
example : pyRound (5/2) = 2 := by with_unfolding_all rfl
example : pyRound (7/2) = 4 := by with_unfolding_all rfl
example : pyRound (1/4) = 0 := by with_unfolding_all rfl
example : pySlice [1, 2, 3, 4] 0 (-2) = [1, 2] := by with_unfolding_all rfl
example : lagsFull [1, 2, 3] [5, 6] = [-1, 0, 1, 2] := by with_unfolding_all rfl
example : corrAt [1, 2, 3] [0, 1] (-1) = 1 := by with_unfolding_all rfl
example : corrAt [1, 2, 3] [0, 1] 0 = 2 := by with_unfolding_all rfl
example : corrAt [1, 2, 3] [0, 1] 2 = 0 := by with_unfolding_all rfl
example : argmaxIdx [1, 3, 3, 2] = 1 := by with_unfolding_all rfl

/-! Basic facts about the first-occurrence argmax and the lag lists. -/

theorem getD_map_div (l : List ℚ) (d : ℝ) :
    ∀ j, j < l.length →
      (l.map (fun (c : ℚ) => (c : ℝ) / d)).getD j 0 = (l.getD j 0 : ℚ) / d := by
  induction l with
  | nil => intro j hj; simp at hj
  | cons x xs ih =>
    intro j hj
    cases j with
    | zero => simp
    | succ k =>
      simp only [List.map_cons, List.getD_cons_succ]
      exact ih k (by simpa using hj)

theorem argmaxIdx_lt_length (l : List ℚ) (hl : l ≠ []) : argmaxIdx l < l.length := by
  induction l with
  | nil => exact absurd rfl hl
  | cons x xs ih =>
    by_cases h : xs.all (fun y => decide (y ≤ x)) = true
    · simp [argmaxIdx, h]
    · have hxs : xs ≠ [] := by
        rintro rfl; simp [List.all_nil] at h
      simp only [argmaxIdx, h, if_false, List.length_cons]
      exact Nat.succ_lt_succ (ih hxs)

theorem argmaxIdx_is_max (l : List ℚ) :
    ∀ j, j < l.length → l.getD j 0 ≤ l.getD (argmaxIdx l) 0 := by
  induction l with
  | nil => intro j hj; simp at hj
  | cons x xs ih =>
    intro j hj
    by_cases h : xs.all (fun y => decide (y ≤ x)) = true
    · have hall : ∀ y ∈ xs, y ≤ x := by
        intro y hy
        have := List.all_eq_true.mp h y hy
        exact of_decide_eq_true this
      simp only [argmaxIdx, h, if_true, List.getD_cons_zero]
      cases j with
      | zero => simp
      | succ k =>
        have hk : k < xs.length := by simpa using hj
        simp only [List.getD_cons_succ]
        have : xs.getD k 0 ∈ xs := by
          rw [List.getD_eq_getElem _ _ hk]
          exact List.getElem_mem hk
        exact hall _ this
    · have hex : ∃ y ∈ xs, ¬ (y ≤ x) := by
        rcases List.all_eq_false.mp (Bool.eq_false_iff.mpr h) with ⟨y, hy, hny⟩
        exact ⟨y, hy, of_decide_eq_false (Bool.not_eq_true _ ▸ hny)⟩
      rcases hex with ⟨y, hy, hny⟩
      have hxy : x < y := lt_of_not_le hny
      rcases List.mem_iff_get.mp hy with ⟨⟨k, hk⟩, rfl⟩
      have hyk : xs.getD k 0 = xs.get ⟨k, hk⟩ := by
        rw [List.getD_eq_getElem _ _ hk]; rfl
      simp only [argmaxIdx, h, if_false, List.getD_cons_succ]
      cases j with
      | zero =>
        simp only [List.getD_cons_zero]
        calc x ≤ xs.get ⟨k, hk⟩ := le_of_lt hxy
        _ = xs.getD k 0 := hyk.symm
        _ ≤ xs.getD (argmaxIdx xs) 0 := ih k hk
      | succ m =>
        have hm : m < xs.length := by simpa using hj
        simp only [List.getD_cons_succ]
        exact ih m hm

theorem argmaxIdx_strict_before (l : List ℚ) :
    ∀ j, j < argmaxIdx l → l.getD j 0 < l.getD (argmaxIdx l) 0 := by
  induction l with
  | nil => intro j hj; simp [argmaxIdx] at hj
  | cons x xs ih =>
    intro j hj
    by_cases h : xs.all (fun y => decide (y ≤ x)) = true
    · simp [argmaxIdx, h] at hj
    · have hex : ∃ y ∈ xs, ¬ (y ≤ x) := by
        rcases List.all_eq_false.mp (Bool.eq_false_iff.mpr h) with ⟨y, hy, hny⟩
        exact ⟨y, hy, of_decide_eq_false (Bool.not_eq_true _ ▸ hny)⟩
      rcases hex with ⟨y, hy, hny⟩
      have hxy : x < y := lt_of_not_le hny
      rcases List.mem_iff_get.mp hy with ⟨⟨k, hk⟩, rfl⟩
      have hyk : xs.getD k 0 = xs.get ⟨k, hk⟩ := by
        rw [List.getD_eq_getElem _ _ hk]; rfl
      simp only [argmaxIdx, h, if_false, List.getD_cons_succ] at hj ⊢
      cases j with
      | zero =>
        simp only [List.getD_cons_zero]
        calc x < xs.get ⟨k, hk⟩ := hxy
        _ = xs.getD k 0 := hyk.symm
        _ ≤ xs.getD (argmaxIdx xs) 0 := argmaxIdx_is_max xs k hk
      | succ m =>
        simp only [List.getD_cons_succ]
        exact ih m (Nat.lt_of_succ_lt_succ hj)

theorem isFirstArgmax_map_div (l : List ℚ) (d : ℝ) (hd : 0 < d) (hl : l ≠ []) :
    IsFirstArgmax (l.map (fun (c : ℚ) => (c : ℝ) / d)) (argmaxIdx l) := by
  have hlen : (l.map (fun (c : ℚ) => (c : ℝ) / d)).length = l.length := List.length_map _ _
  refine ⟨?_, ?_, ?_⟩
  · rw [hlen]; exact argmaxIdx_lt_length l hl
  · intro j hj
    rw [hlen] at hj
    have hi : argmaxIdx l < l.length := argmaxIdx_lt_length l hl
    rw [getD_map_div l d j hj, getD_map_div l d _ hi]
    have h : ((l.getD j 0 : ℚ) : ℝ) ≤ ((l.getD (argmaxIdx l) 0 : ℚ) : ℝ) := by
      exact_mod_cast argmaxIdx_is_max l j hj
    gcongr
  · intro j hj
    have hi : argmaxIdx l < l.length := argmaxIdx_lt_length l hl
    have hj' : j < l.length := lt_trans hj hi
    rw [getD_map_div l d j hj', getD_map_div l d _ hi]
    have h : ((l.getD j 0 : ℚ) : ℝ) < ((l.getD (argmaxIdx l) 0 : ℚ) : ℝ) := by
      exact_mod_cast argmaxIdx_strict_before l j hj
    exact div_lt_div_of_pos_right h hd

theorem mem_lagsFull {a b : List ℚ} (hb : b ≠ []) {l : ℤ} :
    l ∈ lagsFull a b ↔ -((b.length : ℤ) - 1) ≤ l ∧ l ≤ (a.length : ℤ) - 1 := by
  have hb1 : 1 ≤ b.length := List.length_pos.mpr hb
  simp only [lagsFull, List.mem_map, List.mem_range]
  constructor
  · rintro ⟨k, hk, rfl⟩
    omega
  · rintro ⟨h1, h2⟩
    exact ⟨(l + ((b.length : ℤ) - 1)).toNat, by omega, by omega⟩

theorem pairwise_lagsFull (a b : List ℚ) : (lagsFull a b).Pairwise (· < ·) := by
  apply List.Pairwise.map
  · intro x y (h : x < y)
    omega
  · exact List.pairwise_lt_range _

theorem pairwise_keptLags (a b : List ℚ) (sr : ℕ) (ms : Option ℚ) :
    (keptLags a b sr ms).Pairwise (· < ·) :=
  (pairwise_lagsFull a b).sublist (List.filter_sublist _)

theorem maxLagOf_nonneg {a b : List ℚ} (ha : a ≠ []) (hb : b ≠ []) (sr : ℕ)
    (ms : Option ℚ) : 0 ≤ maxLagOf a b sr ms := by
  have ha1 : 1 ≤ a.length := List.length_pos.mpr ha
  have hb1 : 1 ≤ b.length := List.length_pos.mpr hb
  rcases ms with _ | m
  · simp only [maxLagOf]
    omega
  · simp only [maxLagOf]
    by_cases hm : 0 < m
    · rw [if_pos hm]
      have hq : 0 ≤ m * (sr : ℚ) := mul_nonneg (le_of_lt hm) (by positivity)
      have hnum : 0 ≤ (m * (sr : ℚ)).num := Rat.num_nonneg.mpr hq
      exact Int.tdiv_nonneg hnum (by positivity)
    · rw [if_neg hm]
      omega

theorem zero_mem_keptLags {a b : List ℚ} (ha : a ≠ []) (hb : b ≠ []) (sr : ℕ)
    (ms : Option ℚ) : (0 : ℤ) ∈ keptLags a b sr ms := by
  have ha1 : 1 ≤ a.length := List.length_pos.mpr ha
  have hb1 : 1 ≤ b.length := List.length_pos.mpr hb
  have hL : 0 ≤ maxLagOf a b sr ms := maxLagOf_nonneg ha hb sr ms
  simp only [keptLags, List.mem_filter]
  refine ⟨(mem_lagsFull hb).mpr ⟨by omega, by omega⟩, ?_⟩
  simp only [Bool.and_eq_true, decide_eq_true_eq]
  omega

theorem keptLags_ne_nil {a b : List ℚ} (ha : a ≠ []) (hb : b ≠ []) (sr : ℕ)
    (ms : Option ℚ) : keptLags a b sr ms ≠ [] :=
  List.ne_nil_of_mem (zero_mem_keptLags ha hb sr ms)

theorem keptCorr_length (a b : List ℚ) (sr : ℕ) (ms : Option ℚ) :
    (keptCorr a b sr ms).length = (keptLags a b sr ms).length :=
  List.length_map _ _

theorem keptCorr_ne_nil {a b : List ℚ} (ha : a ≠ []) (hb : b ≠ []) (sr : ℕ)
    (ms : Option ℚ) : keptCorr a b sr ms ≠ [] := by
  intro h
  apply keptLags_ne_nil ha hb sr ms
  have := keptCorr_length a b sr ms
  rw [h] at this
  exact List.length_eq_zero.mp this.symm

theorem estimate_offset_seconds_of_ne_nil {a b : List ℚ} (ha : a ≠ []) (hb : b ≠ [])
    (sr : ℕ) (ms : Option ℚ) :
    estimate_offset_seconds a b sr ms =
      (-(((keptLags a b sr ms).getD (argmaxIdx (keptCorr a b sr ms)) 0 : ℤ) : ℚ) / sr,
       (keptLags a b sr ms).map (fun (l : ℤ) => (l : ℚ) / sr),
       keptCorr a b sr ms) := by
  unfold estimate_offset_seconds
  rw [if_neg]
  push_neg
  exact ⟨fun h => ha (List.length_eq_zero.mp h), fun h => hb (List.length_eq_zero.mp h)⟩

/-- C4: for an empty reference or target, the xcorr estimator short-circuits to
offset 0.0 with the single-point degenerate similarity curve ([0.0], [1.0]),
without any failure path. -/
theorem estimate_offset_seconds_degenerate (a b : List ℚ) (sr : ℕ) (ms : Option ℚ)
    (h : a = [] ∨ b = []) :
    estimate_offset_seconds a b sr ms = (0, [0], [1]) := by
  unfold estimate_offset_seconds
  rcases h with rfl | rfl <;> simp

theorem estimate_offset_seconds_degenerate_witness :
    estimate_offset_seconds [] [1] 48000 (some 60) = (0, [0], [1]) :=
  estimate_offset_seconds_degenerate [] [1] 48000 (some 60) (Or.inl rfl)

/-- C10: for non-empty inputs the lag restriction always keeps a non-empty lag
set (the bound is non-negative and lag 0 survives), so the argmax is over a
non-empty list and the returned lag and score sequences are non-empty and of
equal length. -/
theorem xcorr_lag_window_nonempty (a b : List ℚ) (sr : ℕ) (ms : Option ℚ)
    (ha : a ≠ []) (hb : b ≠ []) :
    0 ≤ maxLagOf a b sr ms ∧
    (0 : ℤ) ∈ keptLags a b sr ms ∧
    (estimate_offset_seconds a b sr ms).2.1 ≠ [] ∧
    (estimate_offset_seconds a b sr ms).2.2 ≠ [] ∧
    (estimate_offset_seconds a b sr ms).2.1.length =
      (estimate_offset_seconds a b sr ms).2.2.length := by
  rw [estimate_offset_seconds_of_ne_nil ha hb]
  refine ⟨maxLagOf_nonneg ha hb sr ms, zero_mem_keptLags ha hb sr ms, ?_, ?_, ?_⟩
  · simp only [ne_eq, List.map_eq_nil_iff]
    exact keptLags_ne_nil ha hb sr ms
  · exact keptCorr_ne_nil ha hb sr ms
  · simp [keptCorr_length]

theorem xcorr_lag_window_nonempty_witness :
    0 ≤ maxLagOf [1] [2] 1 none ∧
    (0 : ℤ) ∈ keptLags [1] [2] 1 none ∧
    (estimate_offset_seconds [1] [2] 1 none).2.1 ≠ [] ∧
    (estimate_offset_seconds [1] [2] 1 none).2.2 ≠ [] ∧
    (estimate_offset_seconds [1] [2] 1 none).2.1.length =
      (estimate_offset_seconds [1] [2] 1 none).2.2.length :=
  xcorr_lag_window_nonempty [1] [2] 1 none (by decide) (by decide)

/-- The property claimed of the xcorr estimator (claim C1), in the vocabulary
of the specification: there is a max-lag bound M computed per the stated
formula (int(max_search * sr) when max_search is given and positive, else
min(len a, len b) - 1, including max_search = 0), an increasing list of lags
consisting exactly of the full-correlation lag labels -(len b - 1) .. len a - 1
restricted to absolute value at most M, the returned curve is those lags in
seconds together with the cross-correlation of the zero-meaned signals at
those lags, and the returned offset is -best_lag / sr where best_lag sits at
the first-occurring maximum of the normalized scores (the curve divided by
sqrt(sumSq a0 * sumSq b0) + 1e-12, the normalization of the source). -/
def XcorrClaim (a b : List ℚ) (sr : ℕ) (ms : Option ℚ) : Prop :=
  ∃ M : ℤ, ∃ lags : List ℤ,
    (∀ m, ms = some m → 0 < m → M = pyInt (m * sr)) ∧
    ((∀ m, ms = some m → m ≤ 0) → M = (min a.length b.length : ℤ) - 1) ∧
    lags.Pairwise (· < ·) ∧
    (∀ l : ℤ, l ∈ lags ↔
      (-((b.length : ℤ) - 1) ≤ l ∧ l ≤ (a.length : ℤ) - 1 ∧ |l| ≤ M)) ∧
    (estimate_offset_seconds a b sr ms).2.1 = lags.map (fun (l : ℤ) => (l : ℚ) / sr) ∧
    (estimate_offset_seconds a b sr ms).2.2 =
      lags.map (corrAt (zeroMean a) (zeroMean b)) ∧
    ∃ i : ℕ, ∃ hi : i < lags.length,
      IsFirstArgmax
        (((estimate_offset_seconds a b sr ms).2.2).map
          (fun (c : ℚ) => (c : ℝ) /
            (Real.sqrt ((sumSq (zeroMean a) * sumSq (zeroMean b) : ℚ)) + 1e-12))) i ∧
      (estimate_offset_seconds a b sr ms).1 = -((lags.get ⟨i, hi⟩ : ℤ) : ℚ) / sr

/-- C1: for non-empty inputs and a positive sample rate, estimate_offset_seconds
computes the full cross-correlation with lags -(len b - 1) .. len a - 1, keeps
the lags within the claimed max-lag bound (max_search = 0 falling back to
min(len a, len b) - 1 without error), selects the first-occurring lag of
maximum normalized score and returns offset_seconds = -best_lag / sr. -/
theorem estimate_offset_seconds_spec (a b : List ℚ) (sr : ℕ) (ms : Option ℚ)
    (ha : a ≠ []) (hb : b ≠ []) (hsr : 0 < sr) : XcorrClaim a b sr ms := by
  refine ⟨maxLagOf a b sr ms, keptLags a b sr ms, ?_, ?_,
    pairwise_keptLags a b sr ms, ?_, ?_, ?_, ?_⟩
  · rintro m rfl hm
    simp [maxLagOf, if_pos hm]
  · intro hnp
    rcases ms with _ | m
    · rfl
    · have hm : ¬ (0 < m) := not_lt.mpr (hnp m rfl)
      simp [maxLagOf, if_neg hm]
  · intro l
    simp only [keptLags, List.mem_filter, mem_lagsFull hb, Bool.and_eq_true,
      decide_eq_true_eq, abs_le]
    tauto
  · rw [estimate_offset_seconds_of_ne_nil ha hb]
  · rw [estimate_offset_seconds_of_ne_nil ha hb]; rfl
  · have hcorr : keptCorr a b sr ms ≠ [] := keptCorr_ne_nil ha hb sr ms
    have hi0 : argmaxIdx (keptCorr a b sr ms) < (keptCorr a b sr ms).length :=
      argmaxIdx_lt_length _ hcorr
    have hi : argmaxIdx (keptCorr a b sr ms) < (keptLags a b sr ms).length := by
      rw [← keptCorr_length a b sr ms]; exact hi0
    refine ⟨argmaxIdx (keptCorr a b sr ms), hi, ?_, ?_⟩
    · rw [estimate_offset_seconds_of_ne_nil ha hb]
      have hd : (0 : ℝ) <
          Real.sqrt ((sumSq (zeroMean a) * sumSq (zeroMean b) : ℚ)) + 1e-12 := by
        positivity
      exact isFirstArgmax_map_div _ _ hd hcorr
    · rw [estimate_offset_seconds_of_ne_nil ha hb]
      simp only [List.get_eq_getElem]
      rw [List.getD_eq_getElem _ _ hi]

theorem estimate_offset_seconds_spec_witness : XcorrClaim [1] [0, 1] 1 none :=
  estimate_offset_seconds_spec [1] [0, 1] 1 none (by decide) (by decide) (by decide)

/-- hop = max(1, int(hop_sec * sr)) of find_content_anchor (a positive step). -/
def hopOf (hop_sec : ℚ) (sr : ℕ) : ℕ := (max 1 (pyInt (hop_sec * sr))).toNat

/-- last_start = max(0, len(b_an) - tmpl_len) of find_content_anchor. -/
def lastStartOf (b_an : List ℚ) (tmpl_len : ℤ) : ℕ :=
  (max 0 ((b_an.length : ℤ) - tmpl_len)).toNat

/-- The window starts visited by find_content_anchor:
range(0, last_start + 1, hop). -/
def windowStarts (b_an : List ℚ) (tmpl_len : ℤ) (hop : ℕ) : List ℕ :=
  (List.range (lastStartOf b_an tmpl_len / hop + 1)).map (fun (k : ℕ) => k * hop)

/-- find_content_anchor of the source.  The timbral similarity computation
(librosa 20-coefficient MFCC extraction, time average and cosine similarity
with the 1e-12 norm floor) is an external-library computation abstracted as
the function parameter sim, applied to the template a_an[:tmpl_len] and the
window b_an[start : start + tmpl_len]; every structural property claimed of
the estimator holds for an arbitrary total sim. -/
def find_content_anchor (sim : List ℚ → List ℚ → ℚ) (a_an b_an : List ℚ) (sr : ℕ)
    (template_sec hop_sec min_sim : ℚ) : Option ℚ :=
  let tmpl_len := pyInt (template_sec * sr)
  if (a_an.length : ℤ) < tmpl_len then none
  else
    let tmpl := pySlice a_an 0 tmpl_len
    let hop := hopOf hop_sec sr
    let found := (windowStarts b_an tmpl_len hop).find?
      (fun (s : ℕ) => decide (min_sim ≤ sim tmpl (pySlice b_an (s : ℤ) ((s : ℤ) + tmpl_len))))
    found.map (fun (s : ℕ) => (s : ℚ) / sr)

/-- The window sweep exactly as worded by claim C3: starts run from 0 up to
len(b) - template_length inclusive (an empty sweep when the target is shorter
than the template), rather than up to max(0, len(b) - template_length) as in
the source.  Used to exhibit the divergence between the claim and the source. -/
def findContentAnchorClaimed (sim : List ℚ → List ℚ → ℚ) (a_an b_an : List ℚ)
    (sr : ℕ) (template_sec hop_sec min_sim : ℚ) : Option ℚ :=
  let tmpl_len := pyInt (template_sec * sr)
  if (a_an.length : ℤ) < tmpl_len then none
  else
    let tmpl := pySlice a_an 0 tmpl_len
    let hop := hopOf hop_sec sr
    if (b_an.length : ℤ) - tmpl_len < 0 then none
    else
      let starts := (List.range (((b_an.length : ℤ) - tmpl_len).toNat / hop + 1)).map
        (fun (k : ℕ) => k * hop)
      let found := starts.find?
        (fun (s : ℕ) => decide (min_sim ≤ sim tmpl (pySlice b_an (s : ℤ) ((s : ℤ) + tmpl_len))))
      found.map (fun (s : ℕ) => (s : ℚ) / sr)

/-- A constant similarity oracle: every window scores 1. -/
def constSimOne : List ℚ → List ℚ → ℚ := fun _ _ => 1

example : find_content_anchor constSimOne [0, 0] [0] 1 2 1 0 = some 0 := by
  with_unfolding_all rfl
example : findContentAnchorClaimed constSimOne [0, 0] [0] 1 2 1 0 = none := by
  with_unfolding_all rfl

theorem find?_sorted_eq_some {l : List ℕ} (hp : l.Pairwise (· < ·)) (p : ℕ → Bool)
    (x : ℕ) :
    l.find? p = some x ↔ x ∈ l ∧ p x = true ∧ ∀ y ∈ l, y < x → p y = false := by
  induction l with
  | nil => simp
  | cons a t ih =>
    rcases List.pairwise_cons.mp hp with ⟨hat, ht⟩
    by_cases hpa : p a = true
    · rw [List.find?_cons_of_pos _ hpa]
      constructor
      · intro h
        have hxa : x = a := by injection h; omega
        subst hxa
        refine ⟨List.mem_cons_self _ _, hpa, ?_⟩
        intro y hy hyx
        rcases List.mem_cons.mp hy with rfl | hyt
        · omega
        · exact absurd hyx (not_lt.mpr (le_of_lt (hat y hyt)))
      · rintro ⟨hx, hpx, hmin⟩
        rcases List.mem_cons.mp hx with rfl | hxt
        · rfl
        · have hax : a < x := hat x hxt
          have := hmin a (List.mem_cons_self _ _) hax
          rw [this] at hpa
          exact absurd hpa (by simp)
    · rw [List.find?_cons_of_neg _ hpa]
      rw [ih ht]
      constructor
      · rintro ⟨hx, hpx, hmin⟩
        refine ⟨List.mem_cons_of_mem _ hx, hpx, ?_⟩
        intro y hy hyx
        rcases List.mem_cons.mp hy with rfl | hyt
        · exact Bool.eq_false_iff.mpr hpa
        · exact hmin y hyt hyx
      · rintro ⟨hx, hpx, hmin⟩
        rcases List.mem_cons.mp hx with rfl | hxt
        · exact absurd hpx hpa
        · exact ⟨hxt, hpx, fun y hy hyx => hmin y (List.mem_cons_of_mem _ hy) hyx⟩

theorem hopOf_pos (hop_sec : ℚ) (sr : ℕ) : 0 < hopOf hop_sec sr := by
  unfold hopOf
  omega

theorem pairwise_windowStarts (b_an : List ℚ) (tmpl_len : ℤ) {hop : ℕ}
    (hhop : 0 < hop) : (windowStarts b_an tmpl_len hop).Pairwise (· < ·) := by
  apply List.Pairwise.map
  · intro x y (h : x < y)
    exact (Nat.mul_lt_mul_right hhop).mpr h
  · exact List.pairwise_lt_range _

theorem mem_windowStarts (b_an : List ℚ) (tmpl_len : ℤ) {hop : ℕ} (hhop : 0 < hop)
    (s : ℕ) :
    s ∈ windowStarts b_an tmpl_len hop ↔
      hop ∣ s ∧ s ≤ lastStartOf b_an tmpl_len := by
  simp only [windowStarts, List.mem_map, List.mem_range]
  constructor
  · rintro ⟨k, hk, rfl⟩
    refine ⟨Dvd.intro_left k rfl, ?_⟩
    have : k ≤ lastStartOf b_an tmpl_len / hop := Nat.lt_succ_iff.mp hk
    calc k * hop ≤ (lastStartOf b_an tmpl_len / hop) * hop :=
          Nat.mul_le_mul_right hop this
    _ ≤ lastStartOf b_an tmpl_len := Nat.div_mul_le_self _ _
  · rintro ⟨⟨k, rfl⟩, hle⟩
    refine ⟨k, ?_, (Nat.mul_comm hop k).symm⟩
    have h1 : k * hop ≤ lastStartOf b_an tmpl_len := by
      rw [Nat.mul_comm]; exact hle
    have h2 : k ≤ lastStartOf b_an tmpl_len / hop :=
      (Nat.le_div_iff_mul_le hhop).mpr h1
    omega

/-- Window s of the target qualifies: the (abstracted) cosine similarity of
the template and the window at start s clears the threshold. -/
@[reducible] def Qualifies (sim : List ℚ → List ℚ → ℚ) (a b : List ℚ) (sr : ℕ)
    (ts msim : ℚ) (s : ℕ) : Prop :=
  msim ≤ sim (pySlice a 0 (pyInt (ts * sr)))
    (pySlice b (s : ℤ) ((s : ℤ) + pyInt (ts * sr)))

/-- The property proved of find_content_anchor (claim C3 with the window range
amended to max(0, len(b) - template_length)): a too-short reference always
yields no anchor; otherwise the result is some r exactly when r = s / sr for
the hop-aligned window start s within the sweep range that is the first
qualifying one, and no anchor exactly when no hop-aligned start in range
qualifies. -/
def ContentAnchorClaim (sim : List ℚ → List ℚ → ℚ) (a b : List ℚ) (sr : ℕ)
    (ts hs msim : ℚ) : Prop :=
  ((a.length : ℤ) < pyInt (ts * sr) →
    find_content_anchor sim a b sr ts hs msim = none) ∧
  (¬ (a.length : ℤ) < pyInt (ts * sr) →
    ((∀ r : ℚ, find_content_anchor sim a b sr ts hs msim = some r ↔
        ∃ s : ℕ, r = (s : ℚ) / sr ∧ hopOf hs sr ∣ s ∧
          s ≤ lastStartOf b (pyInt (ts * sr)) ∧
          Qualifies sim a b sr ts msim s ∧
          ∀ s' : ℕ, hopOf hs sr ∣ s' → s' ≤ lastStartOf b (pyInt (ts * sr)) →
            s' < s → ¬ Qualifies sim a b sr ts msim s') ∧
     (find_content_anchor sim a b sr ts hs msim = none ↔
        ∀ s : ℕ, hopOf hs sr ∣ s → s ≤ lastStartOf b (pyInt (ts * sr)) →
          ¬ Qualifies sim a b sr ts msim s)))

/-- C3 (amended): the content estimator returns no anchor (and never a time)
whenever the reference is shorter than the template, and otherwise returns
start / sr for the first qualifying hop-aligned window start in the sweep
0 .. max(0, len(b) - template_length), or no anchor when none qualifies. -/
theorem find_content_anchor_spec (sim : List ℚ → List ℚ → ℚ) (a b : List ℚ)
    (sr : ℕ) (ts hs msim : ℚ) (hsr : 0 < sr) :
    ContentAnchorClaim sim a b sr ts hs msim := by
  have hhop : 0 < hopOf hs sr := hopOf_pos hs sr
  have hpw := pairwise_windowStarts b (pyInt (ts * sr)) hhop
  constructor
  · intro h
    simp only [find_content_anchor, if_pos h]
  · intro h
    constructor
    · intro r
      simp only [find_content_anchor, if_neg h, Option.map_eq_some']
      constructor
      · rintro ⟨s, hfind, hr⟩
        obtain ⟨hmem, hps, hmin⟩ := (find?_sorted_eq_some hpw _ s).mp hfind
        rw [mem_windowStarts _ _ hhop] at hmem
        refine ⟨s, hr.symm, hmem.1, hmem.2, of_decide_eq_true hps, ?_⟩
        intro s' hd hle hlt hq
        have hmem' : s' ∈ windowStarts b (pyInt (ts * sr)) (hopOf hs sr) :=
          (mem_windowStarts _ _ hhop s').mpr ⟨hd, hle⟩
        have := hmin s' hmem' hlt
        rw [decide_eq_true hq] at this
        exact absurd this (by simp)
      · rintro ⟨s, rfl, hd, hle, hq, hmin⟩
        refine ⟨s, ?_, rfl⟩
        apply (find?_sorted_eq_some hpw _ s).mpr
        refine ⟨(mem_windowStarts _ _ hhop s).mpr ⟨hd, hle⟩, decide_eq_true hq, ?_⟩
        intro y hy hlt
        have hy' := (mem_windowStarts _ _ hhop y).mp hy
        exact decide_eq_false (hmin y hy'.1 hy'.2 hlt)
    · simp only [find_content_anchor, if_neg h, Option.map_eq_none', List.find?_eq_none]
      constructor
      · intro hall s hd hle hq
        have hmem : s ∈ windowStarts b (pyInt (ts * sr)) (hopOf hs sr) :=
          (mem_windowStarts _ _ hhop s).mpr ⟨hd, hle⟩
        exact hall s hmem (decide_eq_true hq)
      · intro hall s hmem hps
        have hs' := (mem_windowStarts _ _ hhop s).mp hmem
        exact hall s hs'.1 hs'.2 (of_decide_eq_true hps)

theorem find_content_anchor_spec_witness :
    ContentAnchorClaim constSimOne [1, 2] [3] 1 1 1 0 :=
  find_content_anchor_spec constSimOne [1, 2] [3] 1 1 1 0 (by decide)

/-- C3 counterexample to the claim as stated: with a reference of length 2, a
template of 2 samples and a target of length 1 (shorter than the template),
the source still evaluates the single truncated window at start 0 and returns
time 0, while the window sweep worded by the claim (0 up to
len(b) - template_length inclusive) is empty and would return no anchor. -/
theorem find_content_anchor_claim_counterexample :
    find_content_anchor constSimOne [0, 0] [0] 1 2 1 0 = some 0 ∧
    findContentAnchorClaimed constSimOne [0, 0] [0] 1 2 1 0 = none := by
  constructor
  · with_unfolding_all rfl
  · with_unfolding_all rfl

/-- Exact decision of the gate condition of apply_gate_db: for x = |s| + 1e-12
(always positive) and a rational threshold t = t.num / t.den, the float-free
condition 20 * log10(x) < t is equivalent to x ^ (20 * t.den) < 10 ^ t.num,
which is decidable over the rationals.  The equivalence with the logarithmic
form of the source is proved in levelBelow_iff. -/
def levelBelow (threshold_db s : ℚ) : Bool :=
  decide ((|s| + 1e-12) ^ (20 * threshold_db.den) < (10 : ℚ) ^ threshold_db.num)

/-- apply_gate_db of the source: None passes the signal through; a set
threshold zeroes exactly the samples whose level 20*log10(|s| + 1e-12) is
below it (np.where(db < threshold_db, 0.0, y)). -/
def apply_gate_db (y : List ℚ) (threshold_db : Option ℚ) : List ℚ :=
  match threshold_db with
  | none => y
  | some t => y.map (fun (s : ℚ) => if levelBelow t s then 0 else s)

theorem levelBelow_iff (t s : ℚ) :
    levelBelow t s = true ↔
      20 * Real.logb 10 (((|s| + 1e-12 : ℚ) : ℝ)) < (t : ℝ) := by
  have h12 : (0 : ℚ) < 1e-12 := by norm_num
  have hx : (0 : ℚ) < |s| + 1e-12 :=
    lt_of_lt_of_le h12 (le_add_of_nonneg_left (abs_nonneg s))
  have hxR : (0 : ℝ) < ((|s| + 1e-12 : ℚ) : ℝ) := by exact_mod_cast hx
  have hdz : t.den ≠ 0 := t.den_nz
  have hn : 20 * t.den ≠ 0 := by omega
  have key : (((|s| + 1e-12 : ℚ) : ℝ) ^ (20 * t.den) < (10 : ℝ) ^ t.num) ↔
      (20 * Real.logb 10 (((|s| + 1e-12 : ℚ) : ℝ)) < (t : ℝ)) := by
    have h10 : (1 : ℝ) < 10 := by norm_num
    have h20 : (0 : ℝ) < 20 := by norm_num
    rw [← Real.rpow_intCast 10 t.num]
    have hexp : ((t.num : ℝ)) = ((t : ℝ) / 20) * ((20 * t.den : ℕ) : ℝ) := by
      have hdR : ((t.den : ℝ)) ≠ 0 := by exact_mod_cast hdz
      have h1 : ((t : ℝ)) * (t.den : ℝ) = (t.num : ℝ) := by
        rw [Rat.cast_def]
        field_simp
      push_cast
      rw [← h1]
      ring
    rw [hexp, Real.rpow_mul (by norm_num : (0 : ℝ) ≤ 10), Real.rpow_natCast]
    rw [pow_lt_pow_iff_left (le_of_lt hxR)
      (le_of_lt (Real.rpow_pos_of_pos (by norm_num) _)) hn]
    rw [← Real.logb_lt_iff_lt_rpow h10 hxR]
    rw [lt_div_iff h20]
    constructor <;> intro h <;> linarith
  simp only [levelBelow, decide_eq_true_eq]
  rw [← key,
    show (10 : ℝ) ^ t.num = (((10 : ℚ) ^ t.num : ℚ) : ℝ) from by
      rw [Rat.cast_zpow]; norm_num,
    show (((|s| + 1e-12 : ℚ) : ℝ)) ^ (20 * t.den) =
      (((|s| + 1e-12) ^ (20 * t.den) : ℚ) : ℝ) from by norm_cast,
    Rat.cast_lt]

theorem getD_map_gate (t : ℚ) (l : List ℚ) :
    ∀ i, i < l.length →
      (l.map (fun (s : ℚ) => if levelBelow t s then 0 else s)).getD i 0 =
        (if levelBelow t (l.getD i 0) then 0 else l.getD i 0) := by
  induction l with
  | nil => intro i hi; simp at hi
  | cons x xs ih =>
    intro i hi
    cases i with
    | zero => simp
    | succ k =>
      simp only [List.map_cons, List.getD_cons_succ]
      exact ih k (by simpa using hi)

/-- C9: apply_gate_db with no threshold returns the signal unchanged; with a
set threshold it keeps the length and maps each sample to zero exactly when
its instantaneous level 20*log10(|sample| + 1e-12) is below the threshold,
leaving every other sample unchanged. -/
theorem apply_gate_db_spec (y : List ℚ) (t : ℚ) :
    apply_gate_db y none = y ∧
    (apply_gate_db y (some t)).length = y.length ∧
    ∀ i, i < y.length →
      ((20 * Real.logb 10 (((|y.getD i 0| + 1e-12 : ℚ) : ℝ)) < (t : ℝ) →
          (apply_gate_db y (some t)).getD i 0 = 0) ∧
       (¬ 20 * Real.logb 10 (((|y.getD i 0| + 1e-12 : ℚ) : ℝ)) < (t : ℝ) →
          (apply_gate_db y (some t)).getD i 0 = y.getD i 0)) := by
  refine ⟨rfl, List.length_map _ _, ?_⟩
  intro i hi
  have hmap := getD_map_gate t y i hi
  constructor
  · intro h
    rw [show apply_gate_db y (some t) =
        y.map (fun (s : ℚ) => if levelBelow t s then 0 else s) from rfl, hmap,
      if_pos ((levelBelow_iff t _).mpr h)]
  · intro h
    rw [show apply_gate_db y (some t) =
        y.map (fun (s : ℚ) => if levelBelow t s then 0 else s) from rfl, hmap,
      if_neg (fun hlb => h ((levelBelow_iff t _).mp hlb))]

theorem apply_gate_db_spec_witness :
    apply_gate_db [(1 : ℚ)/2] none = [(1 : ℚ)/2] ∧
    (apply_gate_db [(1 : ℚ)/2] (some 0)).getD 0 0 = 0 := by
  have h := apply_gate_db_spec [(1 : ℚ)/2] 0
  refine ⟨h.1, ?_⟩
  apply (h.2.2 0 (by decide)).1
  have hget : ([(1 : ℚ)/2].getD 0 0) = 1/2 := rfl
  rw [hget, abs_of_nonneg (by norm_num : (0 : ℚ) ≤ 1/2)]
  have hx : (0 : ℚ) < 1/2 + 1e-12 := by norm_num
  have hx1 : (1/2 + 1e-12 : ℚ) < 1 := by norm_num
  have hx0R : (0 : ℝ) < ((1/2 + 1e-12 : ℚ) : ℝ) := by exact_mod_cast hx
  have hx1R : ((1/2 + 1e-12 : ℚ) : ℝ) < 1 := by exact_mod_cast hx1
  have hlog := Real.logb_neg (by norm_num : (1 : ℝ) < 10) hx0R hx1R
  have h0 : ((0 : ℚ) : ℝ) = 0 := by norm_num
  rw [h0]
  linarith

/-- Left-pad a digit string with zeros to the given width. -/
def zeroPadLeft (w : ℕ) (s : String) : String :=
  if s.length < w then String.mk (List.replicate (w - s.length) '0') ++ s else s

/-- Fixed-point rendering of a rational with exactly 6 decimal places, rounding
half to even, as Python percent-f formatting does on the exact value (used on
non-negative inputs only, see ffmpeg_time_format). -/
def fmt6 (q : ℚ) : String :=
  let n : ℤ := pyRound (q * 1000000)
  toString (n.ediv 1000000) ++ "." ++ zeroPadLeft 6 (toString (n.emod 1000000))

/-- ffmpeg_time_format of the source: max(0.0, seconds) to 6 decimal places. -/
def ffmpeg_time_format (seconds : ℚ) : String := fmt6 (max 0 seconds)

example : ffmpeg_time_format (1/20) = "0.050000" := by with_unfolding_all rfl
example : ffmpeg_time_format (-3) = "0.000000" := by with_unfolding_all rfl
example : ffmpeg_time_format (3/2) = "1.500000" := by with_unfolding_all rfl

/-- The three shift instruction shapes of build_align_command. -/
inductive ShiftKind where
  | trim : ShiftKind
  | pad : ShiftKind
  | passthrough : ShiftKind
deriving DecidableEq

/-- The trim / pad / passthrough decision of build_align_command on the
effective offset: trim below -1e-6, pad above 1e-6, passthrough inside the
dead zone. -/
def shiftKind (eff : ℚ) : ShiftKind :=
  if eff < -(1/1000000) then ShiftKind.trim
  else if (1/1000000) < eff then ShiftKind.pad
  else ShiftKind.passthrough

/-- The direction handling of build_align_command: external_to_inhouse keeps
the offset; the other (valid) direction inverts its sign. -/
def effectiveOffset (mode : String) (offset_sec : ℚ) : ℚ :=
  if mode = "external_to_inhouse" then offset_sec else -offset_sec

/-- out_path = out_audio or default_out (Python truthiness: None and the empty
string both fall back to the default). -/
def resolveOutPath (out_audio : Option String) (default_out : String) : String :=
  match out_audio with
  | none => default_out
  | some s => if s = "" then default_out else s

/-- The trim command string of build_align_command (advance the target by
cutting ffmpeg_time_format(trim_sec) seconds from its head). -/
def trimCmd (target : String) (sr : ℕ) (trim_sec : ℚ) (out_path : String) : String :=
  "ffmpeg -y -i \"" ++ target ++ "\" -ac 1 -ar " ++ toString sr ++ " -ss " ++
    ffmpeg_time_format trim_sec ++ " -c:a pcm_s16le -rf64 always \"" ++ out_path ++ "\""

/-- The pad command string of build_align_command (delay the target with
pad_ms milliseconds of leading silence on both adelay channels). -/
def padCmd (target : String) (sr : ℕ) (pad_ms : ℤ) (out_path : String) : String :=
  "ffmpeg -y -i \"" ++ target ++ "\" -ac 1 -ar " ++ toString sr ++
    " -af \"adelay=" ++ toString pad_ms ++ "|" ++ toString pad_ms ++
    "\" -c:a pcm_s16le -rf64 always \"" ++ out_path ++ "\""

/-- The passthrough command string of build_align_command (format
normalization only, no timing change). -/
def passCmd (target : String) (sr : ℕ) (out_path : String) : String :=
  "ffmpeg -y -i \"" ++ target ++ "\" -ac 1 -ar " ++ toString sr ++
    " -c:a pcm_s16le -rf64 always \"" ++ out_path ++ "\""

/-- The ValueError message of build_align_command for an invalid mode. -/
def modeErrorMsg : String := "mode must be external_to_inhouse or inhouse_to_external"

/-- build_align_command of the source: reject an invalid mode first, pick the
target file, effective offset and default output by direction, resolve the
output path, then emit exactly one of the trim / pad / passthrough commands by
the sign of the effective offset.  The prefer_trim flag is accepted and, as in
the source, never read. -/
def build_align_command (inhouse_path external_path : String) (sr : ℕ) (mode : String)
    (offset_sec : ℚ) ( prefer_trim : Bool) (out_audio : Option String) :
    Except String String :=
  if ¬ (mode = "external_to_inhouse" ∨ mode = "inhouse_to_external") then
    Except.error modeErrorMsg
  else
    let target := if mode = "external_to_inhouse" then external_path else inhouse_path
    let eff := effectiveOffset mode offset_sec
    let default_out := if mode = "external_to_inhouse" then "external_aligned.wav"
      else "inhouse_aligned.wav"
    let out_path := resolveOutPath out_audio default_out
    match shiftKind eff with
    | ShiftKind.trim => Except.ok (trimCmd target sr |eff| out_path)
    | ShiftKind.pad => Except.ok (padCmd target sr (pyRound (eff * 1000)) out_path)
    | ShiftKind.passthrough => Except.ok (passCmd target sr out_path)

/-- C7: the command emitted by build_align_command is identical whether the
trim-vs-pad preference flag is true or false, for every combination of paths,
sample rate, direction mode, offset and output path: the flag is accepted but
never consulted (two-run noninterference). -/
theorem build_align_command_flag_noninterference (ih ex : String) (sr : ℕ)
    (mode : String) (o : ℚ) (oa : Option String) :
    build_align_command ih ex sr mode o true oa =
      build_align_command ih ex sr mode o false oa := rfl

/-- C8: build_align_command yields the configuration error exactly when the
direction flag is neither external_to_inhouse nor inhouse_to_external, and it
does so uniformly in all other inputs (no other computation reaches the
offset negation or the trim/pad decision); for a valid direction it always
yields a command. -/
theorem build_align_command_mode_check (ih ex : String) (sr : ℕ) (mode : String)
    (o : ℚ) (pt : Bool) (oa : Option String) :
    (build_align_command ih ex sr mode o pt oa = Except.error modeErrorMsg ↔
      ¬ (mode = "external_to_inhouse" ∨ mode = "inhouse_to_external")) ∧
    ((mode = "external_to_inhouse" ∨ mode = "inhouse_to_external") →
      ∃ cmd, build_align_command ih ex sr mode o pt oa = Except.ok cmd) := by
  by_cases hm : mode = "external_to_inhouse" ∨ mode = "inhouse_to_external"
  · have hok : ∃ cmd, build_align_command ih ex sr mode o pt oa = Except.ok cmd := by
      simp only [build_align_command, if_neg (not_not_intro hm)]
      cases hsk : shiftKind (effectiveOffset mode o) <;> exact ⟨_, rfl⟩
    refine ⟨⟨fun h => ?_, fun hinv => (hinv hm).elim⟩, fun _ => hok⟩
    rcases hok with ⟨cmd, hcmd⟩
    rw [hcmd] at h
    simp at h
  · have herr : build_align_command ih ex sr mode o pt oa = Except.error modeErrorMsg := by
      simp only [build_align_command, if_pos hm]
    exact ⟨⟨fun _ => hm, fun _ => herr⟩, fun hv => (hm hv).elim⟩

theorem build_align_command_mode_check_witness :
    build_align_command "a.wav" "b.wav" 48000 "sideways" 1 false none =
      Except.error modeErrorMsg ∧
    ∃ cmd, build_align_command "a.wav" "b.wav" 48000 "external_to_inhouse" 1 false none =
      Except.ok cmd :=
  ⟨(build_align_command_mode_check "a.wav" "b.wav" 48000 "sideways" 1 false none).1.mpr
      (by decide),
   (build_align_command_mode_check "a.wav" "b.wav" 48000 "external_to_inhouse" 1 false
      none).2 (Or.inl rfl)⟩

/-- C2: for a valid mode, build_align_command acts on the effective offset
(the offset itself for external_to_inhouse, its negation for
inhouse_to_external) and emits exactly one instruction: a trim of
|effective offset| seconds (rendered by ffmpeg_time_format to 6 decimal
places inside trimCmd) when the effective offset is below -1e-6, a pad of
round(effective_offset * 1000) integer milliseconds when it is above 1e-6,
and the format-normalization passthrough when its magnitude is at most
1e-6; the three guard conditions cover every offset and are mutually
exclusive. -/
theorem build_align_command_cases (ih ex : String) (sr : ℕ) (mode : String)
    (o : ℚ) (pt : Bool) (oa : Option String)
    (hm : mode = "external_to_inhouse" ∨ mode = "inhouse_to_external") :
    (mode = "external_to_inhouse" → effectiveOffset mode o = o) ∧
    (mode = "inhouse_to_external" → effectiveOffset mode o = -o) ∧
    (effectiveOffset mode o < -(1/1000000) →
      build_align_command ih ex sr mode o pt oa = Except.ok
        (trimCmd (if mode = "external_to_inhouse" then ex else ih) sr
          |effectiveOffset mode o|
          (resolveOutPath oa (if mode = "external_to_inhouse" then
            "external_aligned.wav" else "inhouse_aligned.wav")))) ∧
    ((1/1000000) < effectiveOffset mode o →
      build_align_command ih ex sr mode o pt oa = Except.ok
        (padCmd (if mode = "external_to_inhouse" then ex else ih) sr
          (pyRound (effectiveOffset mode o * 1000))
          (resolveOutPath oa (if mode = "external_to_inhouse" then
            "external_aligned.wav" else "inhouse_aligned.wav")))) ∧
    (|effectiveOffset mode o| ≤ 1/1000000 →
      build_align_command ih ex sr mode o pt oa = Except.ok
        (passCmd (if mode = "external_to_inhouse" then ex else ih) sr
          (resolveOutPath oa (if mode = "external_to_inhouse" then
            "external_aligned.wav" else "inhouse_aligned.wav")))) ∧
    (effectiveOffset mode o < -(1/1000000) ∨ (1/1000000) < effectiveOffset mode o ∨
      |effectiveOffset mode o| ≤ 1/1000000) ∧
    ¬ (effectiveOffset mode o < -(1/1000000) ∧ (1/1000000) < effectiveOffset mode o) ∧
    ¬ (effectiveOffset mode o < -(1/1000000) ∧ |effectiveOffset mode o| ≤ 1/1000000) ∧
    ¬ ((1/1000000) < effectiveOffset mode o ∧ |effectiveOffset mode o| ≤ 1/1000000) := by
  have habs : ∀ q : ℚ, |q| ≤ 1/1000000 ↔ -(1/1000000) ≤ q ∧ q ≤ 1/1000000 :=
    fun q => abs_le
  refine ⟨?_, ?_, ?_, ?_, ?_, ?_, ?_, ?_, ?_⟩
  · intro h; simp [effectiveOffset, h]
  · intro h
    have hne : mode ≠ "external_to_inhouse" := by
      rw [h]; decide
    simp [effectiveOffset, h, hne]
  · intro h
    have hk : shiftKind (effectiveOffset mode o) = ShiftKind.trim := by
      unfold shiftKind
      rw [if_pos h]
    simp only [build_align_command, if_neg (not_not_intro hm), hk]
  · intro h
    have hk : shiftKind (effectiveOffset mode o) = ShiftKind.pad := by
      have h1 : ¬ effectiveOffset mode o < -(1/1000000) := by linarith
      unfold shiftKind
      rw [if_neg h1, if_pos h]
    simp only [build_align_command, if_neg (not_not_intro hm), hk]
  · intro h
    rw [habs] at h
    have hk : shiftKind (effectiveOffset mode o) = ShiftKind.passthrough := by
      have h1 : ¬ effectiveOffset mode o < -(1/1000000) := by linarith
      have h2 : ¬ (1/1000000) < effectiveOffset mode o := by linarith
      unfold shiftKind
      rw [if_neg h1, if_neg h2]
    simp only [build_align_command, if_neg (not_not_intro hm), hk]
  · rcases lt_trichotomy (effectiveOffset mode o) (-(1/1000000)) with h | h | h
    · exact Or.inl h
    · exact Or.inr (Or.inr ((habs _).mpr ⟨le_of_eq h.symm, by linarith⟩))
    · by_cases h2 : (1/1000000) < effectiveOffset mode o
      · exact Or.inr (Or.inl h2)
      · exact Or.inr (Or.inr ((habs _).mpr ⟨le_of_lt h, not_lt.mp h2⟩))
  · rintro ⟨h1, h2⟩; linarith
  · rintro ⟨h1, h2⟩; rw [habs] at h2; linarith [h2.1]
  · rintro ⟨h1, h2⟩; rw [habs] at h2; linarith [h2.2]

theorem build_align_command_cases_witness :
    build_align_command "ih.wav" "ex.wav" 48000 "external_to_inhouse" (-1) true none =
      Except.ok
        (trimCmd (if "external_to_inhouse" = "external_to_inhouse" then "ex.wav"
            else "ih.wav") 48000
          |effectiveOffset "external_to_inhouse" (-1)|
          (resolveOutPath none (if "external_to_inhouse" = "external_to_inhouse" then
            "external_aligned.wav" else "inhouse_aligned.wav"))) :=
  (build_align_command_cases "ih.wav" "ex.wav" 48000 "external_to_inhouse" (-1) true none
    (Or.inl rfl)).2.2.1 (of_decide_eq_true (by with_unfolding_all rfl))

/-- The opposite-selection relation worded by claim C6: one run trims while
the other pads, or both pass through. -/
def OppositeKind (k1 k2 : ShiftKind) : Prop :=
  (k1 = ShiftKind.trim ∧ k2 = ShiftKind.pad) ∨
  (k1 = ShiftKind.pad ∧ k2 = ShiftKind.trim) ∨
  (k1 = ShiftKind.passthrough ∧ k2 = ShiftKind.passthrough)

/-- C6 counterexample to the claim as stated: at offset o = 1 the run
(offset 1, external_to_inhouse) and the run (offset -1, inhouse_to_external)
have the same effective offset 1 (the two negations cancel), so both emit a
pad, which is not the opposite selection the claim requires. -/
theorem shift_direction_counterexample :
    shiftKind (effectiveOffset "external_to_inhouse" 1) = ShiftKind.pad ∧
    shiftKind (effectiveOffset "inhouse_to_external" (-1)) = ShiftKind.pad ∧
    ¬ OppositeKind (shiftKind (effectiveOffset "external_to_inhouse" 1))
        (shiftKind (effectiveOffset "inhouse_to_external" (-1))) := by
  have h1 : shiftKind (effectiveOffset "external_to_inhouse" 1) = ShiftKind.pad := by
    with_unfolding_all rfl
  have h2 : shiftKind (effectiveOffset "inhouse_to_external" (-1)) = ShiftKind.pad := by
    with_unfolding_all rfl
  refine ⟨h1, h2, ?_⟩
  rw [h1, h2]
  rintro (⟨h, _⟩ | ⟨_, h⟩ | ⟨h, _⟩) <;> exact ShiftKind.noConfusion h

/-- C6 (amended): the direction inversion of build_align_command makes the
instruction kinds for (offset o, external_to_inhouse) and
(offset o, inhouse_to_external) select the opposite of trim and pad (or both
passthrough when |o| is at most 1e-6), because inhouse_to_external negates the
offset before the trim/pad decision; equivalently the pair (offset o,
external_to_inhouse) and (offset -o, inhouse_to_external) select the SAME
kind, the two negations cancelling. -/
theorem shift_direction_opposite (o : ℚ) :
    OppositeKind (shiftKind (effectiveOffset "external_to_inhouse" o))
      (shiftKind (effectiveOffset "inhouse_to_external" o)) ∧
    shiftKind (effectiveOffset "external_to_inhouse" o) =
      shiftKind (effectiveOffset "inhouse_to_external" (-o)) := by
  have he : effectiveOffset "external_to_inhouse" o = o := by
    unfold effectiveOffset
    rw [if_pos rfl]
  have hne : ("inhouse_to_external" : String) ≠ "external_to_inhouse" := by decide
  have hi : effectiveOffset "inhouse_to_external" o = -o := by
    unfold effectiveOffset
    rw [if_neg hne]
  have hi' : effectiveOffset "inhouse_to_external" (-o) = o := by
    unfold effectiveOffset
    rw [if_neg hne, neg_neg]
  rw [he, hi, hi']
  refine ⟨?_, rfl⟩
  unfold shiftKind OppositeKind
  rcases lt_trichotomy o (-(1/1000000)) with h | h | h
  · have hp : (1/1000000) < -o := by linarith
    have hn1 : ¬ -o < -(1/1000000) := by linarith
    rw [if_pos h, if_neg hn1, if_pos hp]
    exact Or.inl ⟨rfl, rfl⟩
  · have hn1 : ¬ o < -(1/1000000) := by rw [h]; exact lt_irrefl _
    have hn2 : ¬ (1/1000000) < o := by rw [h]; norm_num
    have hn3 : ¬ -o < -(1/1000000) := by rw [h]; norm_num
    have hn4 : ¬ (1/1000000) < -o := by rw [h]; norm_num
    rw [if_neg hn1, if_neg hn2, if_neg hn3, if_neg hn4]
    exact Or.inr (Or.inr ⟨rfl, rfl⟩)
  · by_cases h2 : (1/1000000) < o
    · have hn1 : ¬ o < -(1/1000000) := by linarith
      have hp : -o < -(1/1000000) := by linarith
      rw [if_neg hn1, if_pos h2, if_pos hp]
      exact Or.inr (Or.inl ⟨rfl, rfl⟩)
    · have hn1 : ¬ o < -(1/1000000) := by linarith
      have hn3 : ¬ -o < -(1/1000000) := by linarith
      have hn4 : ¬ (1/1000000) < -o := by
        push_neg at h2
        linarith
      rw [if_neg hn1, if_neg h2, if_neg hn3, if_neg hn4]
      exact Or.inr (Or.inr ⟨rfl, rfl⟩)

theorem pyInt_nonneg {q : ℚ} (hq : 0 ≤ q) : 0 ≤ pyInt q :=
  Int.tdiv_nonneg (Rat.num_nonneg.mpr hq) (by positivity)

/-- The no-radius fallback pad of the analysis window builder:
min(a.size, b.size) - 1 if a.size and b.size else 0 (Python truthiness of the
sizes). -/
def padFallback (a_an b_an : List ℚ) : ℤ :=
  if a_an.length ≠ 0 ∧ b_an.length ≠ 0 then (min a_an.length b_an.length : ℤ) - 1
  else 0

/-- pad of the analysis window builder (present identically in the CLI main
and in run_alignment_job): int(max_search * sr) when max_search is truthy and
positive, else the fallback. -/
def analysisPad (a_an b_an : List ℚ) (sr : ℕ) (max_search : Option ℚ) : ℤ :=
  match max_search with
  | some m => if 0 < m then pyInt (m * sr) else padFallback a_an b_an
  | none => padFallback a_an b_an

/-- Target truncation of the analysis window builder: needed_b_len =
a_an.size + 2 * pad; b_an = b_an[:needed_b_len] if b_an.size > needed_b_len. -/
def truncateTarget (a_an b_an : List ℚ) (sr : ℕ) (max_search : Option ℚ) : List ℚ :=
  let pad := analysisPad a_an b_an sr max_search
  let needed_b_len := (a_an.length : ℤ) + 2 * pad
  if (b_an.length : ℤ) > needed_b_len then pySlice b_an 0 needed_b_len else b_an

/-- C5 counterexample to the claim as stated: with an empty reference, a
one-sample target and no positive search radius, the source guards the
fallback with the truthiness of both sizes and sets pad = 0, while the
unconditional formula min(len(reference), len(target)) - 1 required by the
claim gives -1. -/
theorem analysis_pad_counterexample :
    analysisPad [] [1] 48000 none = 0 ∧
    (min (List.length ([] : List ℚ)) (List.length [(1 : ℚ)]) : ℤ) - 1 = -1 ∧
    analysisPad [] [1] 48000 none ≠
      (min (List.length ([] : List ℚ)) (List.length [(1 : ℚ)]) : ℤ) - 1 := by
  refine ⟨by with_unfolding_all rfl, by decide, ?_⟩
  rw [show analysisPad [] [1] 48000 none = 0 from by with_unfolding_all rfl]
  decide

/-- C5 (amended): the analysis window builder computes
pad = int(max_search * sr) for a positive max-search radius and otherwise
pad = min(len(reference), len(target)) - 1 when both are non-empty and pad = 0
when either is empty; pad is never negative, and the target is truncated to an
initial segment of itself of length at most len(reference) + 2 * pad (the reference is
not consumed by this step beyond its length). -/
theorem analysis_window_spec (a b : List ℚ) (sr : ℕ) (ms : Option ℚ) :
    (∀ m, ms = some m → 0 < m → analysisPad a b sr ms = pyInt (m * sr)) ∧
    ((∀ m, ms = some m → m ≤ 0) → a ≠ [] → b ≠ [] →
      analysisPad a b sr ms = (min a.length b.length : ℤ) - 1) ∧
    ((∀ m, ms = some m → m ≤ 0) → (a = [] ∨ b = []) →
      analysisPad a b sr ms = 0) ∧
    0 ≤ analysisPad a b sr ms ∧
    truncateTarget a b sr ms =
      b.take (min b.length ((a.length : ℤ) + 2 * analysisPad a b sr ms).toNat) ∧
    ((truncateTarget a b sr ms).length : ℤ) ≤
      (a.length : ℤ) + 2 * analysisPad a b sr ms := by
  have hfb : 0 ≤ padFallback a b := by
    unfold padFallback
    split_ifs with h <;> omega
  have hpad : 0 ≤ analysisPad a b sr ms := by
    rcases ms with _ | m
    · exact hfb
    · show 0 ≤ (if 0 < m then pyInt (m * (sr : ℚ)) else padFallback a b)
      by_cases h1 : 0 < m
      · rw [if_pos h1]
        exact pyInt_nonneg (mul_nonneg (le_of_lt h1) (Nat.cast_nonneg sr))
      · rw [if_neg h1]
        exact hfb
  have hneed0 : 0 ≤ (a.length : ℤ) + 2 * analysisPad a b sr ms := by omega
  have htrunc : truncateTarget a b sr ms =
      b.take (min b.length ((a.length : ℤ) + 2 * analysisPad a b sr ms).toNat) := by
    unfold truncateTarget
    by_cases hgt : (b.length : ℤ) > (a.length : ℤ) + 2 * analysisPad a b sr ms
    · rw [if_pos hgt]
      unfold pySlice pySliceIdx
      rw [if_neg (by omega : ¬ (a.length : ℤ) + 2 * analysisPad a b sr ms < 0),
        if_neg (by omega : ¬ (0 : ℤ) < 0)]
      simp only [Int.toNat_zero, Nat.zero_min, List.drop_zero]
      rw [min_comm]
    · rw [if_neg hgt]
      have hmin : min b.length ((a.length : ℤ) + 2 * analysisPad a b sr ms).toNat =
          b.length := by omega
      rw [hmin, List.take_length]
  refine ⟨?_, ?_, ?_, hpad, htrunc, ?_⟩
  · rintro m rfl hm
    show (if 0 < m then pyInt (m * (sr : ℚ)) else padFallback a b) = pyInt (m * (sr : ℚ))
    rw [if_pos hm]
  · intro hnp ha hb
    have ha1 : a.length ≠ 0 := fun h => ha (List.length_eq_zero.mp h)
    have hb1 : b.length ≠ 0 := fun h => hb (List.length_eq_zero.mp h)
    have hfb2 : padFallback a b = (min a.length b.length : ℤ) - 1 := by
      unfold padFallback
      rw [if_pos ⟨ha1, hb1⟩]
    rcases ms with _ | m
    · exact hfb2
    · have hm : ¬ 0 < m := not_lt.mpr (hnp m rfl)
      show (if 0 < m then pyInt (m * (sr : ℚ)) else padFallback a b) = _
      rw [if_neg hm]
      exact hfb2
  · intro hnp hempty
    have hor : ¬ (a.length ≠ 0 ∧ b.length ≠ 0) := by
      rcases hempty with rfl | rfl <;> simp
    have hfb2 : padFallback a b = 0 := by
      unfold padFallback
      rw [if_neg hor]
    rcases ms with _ | m
    · exact hfb2
    · have hm : ¬ 0 < m := not_lt.mpr (hnp m rfl)
      show (if 0 < m then pyInt (m * (sr : ℚ)) else padFallback a b) = 0
      rw [if_neg hm]
      exact hfb2
  · rw [htrunc, List.length_take]
    omega

theorem analysis_window_spec_witness :
    analysisPad [(1 : ℚ)] [(2 : ℚ), 3, 4] 1 none =
      (min (List.length [(1 : ℚ)]) (List.length [(2 : ℚ), 3, 4]) : ℤ) - 1 ∧
    analysisPad [] [(2 : ℚ)] 1 none = 0 :=
  ⟨(analysis_window_spec [(1 : ℚ)] [(2 : ℚ), 3, 4] 1 none).2.1
      (fun m hm => nomatch hm) (by decide) (by decide),
   (analysis_window_spec [] [(2 : ℚ)] 1 none).2.2.1
      (fun m hm => nomatch hm) (Or.inl rfl)⟩
